import Mathlib

/-!
Shallow embedding of the accessor-path compiler and prefix-sharing engine
found in `crates/aiken-lang/src/gen_uplc/stick_break_set.rs`, together with
theorems settling the specification claims about it.

The embedding keeps the source's names (`Builtin`, `Builtins`, `TreeSet`,
`TreeNode`, `new_from_path`, `diff_union_builtins`, `to_air`, ...).  Rust
in-place mutation is modelled by returning the updated structure alongside
the original return value, and `unreachable!()` aborts are modelled by
`Option`-valued functions returning `none`.
-/

namespace StickBreakSet

/-- Modelled from the spec: the semantic type descriptor (`Type` from
`crates/aiken-lang/src/expr.rs`, which is not among the sources at hand).
The core consults it only as an opaque annotation payload, except for the
fixed result type "list of opaque data" (`Type::list(Type::data())`), so it
is modelled with a `data` atom, a `list` former and an opaque remainder. -/
inductive Ty where
  | data : Ty
  | list : Ty → Ty
  | other : Nat → Ty
deriving DecidableEq, Repr

/-- Modelled from the spec: the target virtual machine's primitive function
tags (`DefaultFunction` from the external `uplc` crate); only the four tags
used by the core are needed. -/
inductive DefaultFunction where
  | headList : DefaultFunction
  | tailList : DefaultFunction
  | fstPair : DefaultFunction
  | sndPair : DefaultFunction
deriving DecidableEq, Repr

/-- Modelled from the spec: the intermediate-representation tree (`AirTree`
from `crates/aiken-lang/src/gen_uplc/tree.rs`, not among the sources at
hand).  The spec (§6) treats the IR constructors used by the core —
`build_call` for primitive calls, `call` for helper-function calls,
`variable_reference` and `let_binding` — as free, side-effect-free
constructors, which free constructors of an inductive realise exactly. -/
inductive AirTree where
  | builtin : DefaultFunction → Ty → List AirTree → AirTree
  | call : AirTree → Ty → List AirTree → AirTree
  | let_assignment : String → AirTree → AirTree → AirTree
  | local_var : String → Ty → AirTree

/-- The fixed name of the shared constructor-fields-exposer helper function
(`CONSTR_FIELDS_EXPOSER` from the external `uplc` crate). -/
def CONSTR_FIELDS_EXPOSER : String := "__constr_fields_exposer"

/-- Modelled from the spec: the registry of synthesized helper functions
(`CodeGenSpecialFuncs` from `crates/aiken-lang/src/gen_uplc/builder.rs`, not
among the sources at hand).  Per spec §5/§6, resolving a helper function by
its fixed name is synchronous, side-effect-free and reentrant, so it is
modelled as a pure lookup from names to IR trees. -/
structure CodeGenSpecialFuncs where
  funcTree : String → AirTree

def CodeGenSpecialFuncs.use_function_tree (sf : CodeGenSpecialFuncs)
    (name : String) : AirTree :=
  sf.funcTree name

/-- One primitive accessor operation (`enum Builtin`). -/
inductive Builtin where
  | headList : Ty → Builtin
  | tailList : Builtin
  | unConstrFields : Builtin
  | fstPair : Ty → Builtin
  | sndPair : Ty → Builtin
deriving DecidableEq, Repr

/-- The custom `impl PartialEq for Builtin`: kinds compare by tag, ignoring
the payload type, and the `FstPair` arm is absent, so `FstPair` falls into
the catch-all and equals nothing. -/
def Builtin.beq : Builtin → Builtin → Bool
  | Builtin.headList _, Builtin.headList _ => true
  | Builtin.tailList, Builtin.tailList => true
  | Builtin.unConstrFields, Builtin.unConstrFields => true
  | Builtin.sndPair _, Builtin.sndPair _ => true
  | _, _ => false

/-- The kind tag of an operation, used to state claims about the custom
equality. -/
inductive BuiltinKind where
  | headList : BuiltinKind
  | tailList : BuiltinKind
  | unConstrFields : BuiltinKind
  | fstPair : BuiltinKind
  | sndPair : BuiltinKind
deriving DecidableEq, Repr

def Builtin.kind : Builtin → BuiltinKind
  | Builtin.headList _ => BuiltinKind.headList
  | Builtin.tailList => BuiltinKind.tailList
  | Builtin.unConstrFields => BuiltinKind.unConstrFields
  | Builtin.fstPair _ => BuiltinKind.fstPair
  | Builtin.sndPair _ => BuiltinKind.sndPair

/-- `Builtin::to_air_call`: lower one operation applied to `arg`. -/
def Builtin.to_air_call (b : Builtin) (special_funcs : CodeGenSpecialFuncs)
    (arg : AirTree) : AirTree :=
  match b with
  | Builtin.headList t => AirTree.builtin DefaultFunction.headList t [arg]
  | Builtin.tailList =>
      AirTree.builtin DefaultFunction.tailList (Ty.list Ty.data) [arg]
  | Builtin.unConstrFields =>
      AirTree.call (special_funcs.use_function_tree CONSTR_FIELDS_EXPOSER)
        (Ty.list Ty.data) [arg]
  | Builtin.fstPair t => AirTree.builtin DefaultFunction.fstPair t [arg]
  | Builtin.sndPair t => AirTree.builtin DefaultFunction.sndPair t [arg]

/-- `Builtin::tipo`: the declared result type of one operation. -/
def Builtin.tipo : Builtin → Ty
  | Builtin.headList t => t
  | Builtin.tailList => Ty.list Ty.data
  | Builtin.unConstrFields => Ty.list Ty.data
  | Builtin.fstPair t => t
  | Builtin.sndPair t => t

/-- `impl ToString for Builtin`: the fixed textual tag of each operation. -/
def Builtin.to_string : Builtin → String
  | Builtin.headList _ => "head"
  | Builtin.tailList => "tail"
  | Builtin.unConstrFields => "unconstrfields"
  | Builtin.fstPair _ => "fst"
  | Builtin.sndPair _ => "snd"

/-- An accessor sequence (`struct Builtins { vec: Vec<Builtin> }`). -/
structure Builtins where
  vec : List Builtin
deriving DecidableEq, Repr

/-- Elementwise sequence equality under `Builtin.beq`, as Rust's derived
`PartialEq` for `Builtins` behaves on its `Vec<Builtin>` field. -/
def builtinListBeq : List Builtin → List Builtin → Bool
  | [], [] => true
  | x :: xs, y :: ys => Builtin.beq x y && builtinListBeq xs ys
  | _, _ => false

/-- The derived `PartialEq` of `Builtins`: same length and elementwise
equality of the operations under the custom `Builtin` equality. -/
def Builtins.beq (a b : Builtins) : Bool := builtinListBeq a.vec b.vec

def Builtins.new : Builtins := ⟨[]⟩

/-- `Builtins::pop`: drop the last operation (no-op on empty). -/
def Builtins.pop (b : Builtins) : Builtins := ⟨b.vec.dropLast⟩

def Builtins.len (b : Builtins) : Nat := b.vec.length

def Builtins.is_empty (b : Builtins) : Bool := b.vec.isEmpty

/-- `Builtins::merge`: `self` followed by `other`. -/
def Builtins.merge (a b : Builtins) : Builtins := ⟨a.vec ++ b.vec⟩

/-- `impl ToString for Builtins`: join the operation tags with `_`. -/
def Builtins.to_string (b : Builtins) : String :=
  String.intercalate "_" (b.vec.map Builtin.to_string)

/-- Modelled from the spec: the decision-tree discriminator (`CaseTest` from
`crates/aiken-lang/src/gen_uplc/decision_tree.rs`, not among the sources at
hand).  The spec names the list-length and list-with-tail discriminators; all
other discriminator kinds, unreachable for `new_from_list_case`, are
collapsed into an opaque `other` constructor. -/
inductive CaseTest where
  | list : Nat → CaseTest
  | listWithTail : Nat → CaseTest
  | other : Nat → CaseTest
deriving DecidableEq, Repr

/-- `Builtins::new_from_list_case`: `i` tail operations for a list-shaped
discriminator; every other discriminator hits `unreachable!()` (`none`). -/
def Builtins.new_from_list_case : CaseTest → Option Builtins
  | CaseTest.list i | CaseTest.listWithTail i =>
      some ⟨List.replicate i Builtin.tailList⟩
  | CaseTest.other _ => none

/-- Modelled from the spec: one step of a structural path (`Path` from
`crates/aiken-lang/src/gen_uplc/decision_tree.rs`, not among the sources at
hand); the `constr` step's first argument stands for the opaque type
reference carried by `Path::Constr`. -/
inductive Path where
  | pair : Nat → Path
  | list : Nat → Path
  | tuple : Nat → Path
  | constr : Nat → Nat → Path
  | listTail : Nat → Path
deriving DecidableEq, Repr

/-- The fold body of `Builtins::new_from_path`, with the external type
lookup `get_tipo_by_path` passed in as `getTipo`.  The accumulator carries
the operations emitted so far and the rebuilt path prefix (which includes
the current step before `getTipo` is consulted, as in the source).  The
`unreachable!()` on a pair index outside {0, 1} aborts the whole
translation (`none`). -/
def newFromPathGo (getTipo : Ty → List Path → Ty) (subject_tipo : Ty) :
    List Builtin → List Path → List Path → Option (List Builtin)
  | builtins, _rebuilt, [] => some builtins
  | builtins, rebuilt, i :: rest =>
    match i with
    | Path.pair j =>
        if j = 0 then
          newFromPathGo getTipo subject_tipo
            (builtins ++
              [Builtin.headList (getTipo subject_tipo (rebuilt ++ [Path.pair j]))])
            (rebuilt ++ [Path.pair j]) rest
        else if j = 1 then
          newFromPathGo getTipo subject_tipo
            (builtins ++
              [Builtin.sndPair (getTipo subject_tipo (rebuilt ++ [Path.pair j]))])
            (rebuilt ++ [Path.pair j]) rest
        else none
    | Path.list j =>
        newFromPathGo getTipo subject_tipo
          (builtins ++ List.replicate j Builtin.tailList ++
            [Builtin.headList (getTipo subject_tipo (rebuilt ++ [Path.list j]))])
          (rebuilt ++ [Path.list j]) rest
    | Path.tuple j =>
        newFromPathGo getTipo subject_tipo
          (builtins ++ List.replicate j Builtin.tailList ++
            [Builtin.headList (getTipo subject_tipo (rebuilt ++ [Path.tuple j]))])
          (rebuilt ++ [Path.tuple j]) rest
    | Path.constr r j =>
        newFromPathGo getTipo subject_tipo
          (builtins ++ [Builtin.unConstrFields] ++
            List.replicate j Builtin.tailList ++
            [Builtin.headList (getTipo subject_tipo (rebuilt ++ [Path.constr r j]))])
          (rebuilt ++ [Path.constr r j]) rest
    | Path.listTail j =>
        newFromPathGo getTipo subject_tipo
          (builtins ++ List.replicate j Builtin.tailList)
          (rebuilt ++ [Path.listTail j]) rest

/-- `Builtins::new_from_path`: translate a structural path into an accessor
sequence, consulting the external type lookup for each terminal head /
pair-component annotation. -/
def Builtins.new_from_path (getTipo : Ty → List Path → Ty) (subject_tipo : Ty)
    (path : List Path) : Option Builtins :=
  (newFromPathGo getTipo subject_tipo [] [] path).map Builtins.mk

/-- The step closure of the forward pass of `Builtins::to_air`: carry
(previous name, previous type, recorded tuples) and append one
`(prev_name, prev_tipo, next_name, builtin)` tuple per operation. -/
def toAirStep (st : String × Ty × List (String × Ty × String × Builtin))
    (item : Builtin) : String × Ty × List (String × Ty × String × Builtin) :=
  (st.1 ++ "_" ++ item.to_string, item.tipo,
    st.2.2 ++ [(st.1, st.2.1, st.1 ++ "_" ++ item.to_string, item)])

/-- The wrapping closure of the backward pass (`rfold`) of
`Builtins::to_air`: one let binding per recorded tuple. -/
def toAirWrap (special_funcs : CodeGenSpecialFuncs)
    (nb : String × Ty × String × Builtin) (thenTree : AirTree) : AirTree :=
  AirTree.let_assignment nb.2.2.1
    (nb.2.2.2.to_air_call special_funcs (AirTree.local_var nb.1 nb.2.1))
    thenTree

/-- `Builtins::to_air`: forward pass recording (name, type, next name,
operation) tuples, then a reverse fold wrapping the continuation in one let
binding per tuple, innermost binding for the last operation. -/
def Builtins.to_air (self : Builtins) (special_funcs : CodeGenSpecialFuncs)
    (prev_name : String) (subject_tipo : Ty) (thenTree : AirTree) : AirTree :=
  ((self.vec.foldl toAirStep (prev_name, subject_tipo, [])).2.2).foldr
    (toAirWrap special_funcs) thenTree

/-- One node of the prefix-sharing trie (`struct TreeNode`). -/
inductive TreeNode where
  | mk : Builtin → List TreeNode → TreeNode

def TreeNode.node : TreeNode → Builtin
  | TreeNode.mk n _ => n

def TreeNode.children : TreeNode → List TreeNode
  | TreeNode.mk _ c => c

/-- The prefix-sharing trie (`struct TreeSet`): a forest of root nodes. -/
structure TreeSet where
  children : List TreeNode

/-- `TreeSet::new`: the empty trie. -/
def TreeSet.new : TreeSet := ⟨[]⟩

/-- The `Iterator::reduce` step used by `TreeSet::new_from_builtins`: the
accumulated node `prev` is pushed as the last child of `current`. -/
def listReduce : List TreeNode → Option TreeNode
  | [] => none
  | x :: xs =>
      some (xs.foldl
        (fun prev current => TreeNode.mk current.node (current.children ++ [prev]))
        x)

/-- `TreeSet::new_from_builtins`: map each operation to a childless node,
reverse, and reduce innermost-first so the first operation becomes the root
of a single chain; an empty sequence yields an empty forest. -/
def TreeSet.new_from_builtins (builtins : Builtins) : TreeSet :=
  TreeSet.mk
    (listReduce ((builtins.vec.map (fun item => TreeNode.mk item [])).reverse)).toList

/-- The `self.children.iter_mut().find(|item| first == &item.node)` step of
`diff_union_builtins`, split into the earlier non-matching siblings, the
first matching child, and the later siblings (so the in-place update of the
found child can be expressed functionally). -/
def splitFirstMatch (first : Builtin) :
    List TreeNode → Option (List TreeNode × TreeNode × List TreeNode)
  | [] => none
  | c :: rest =>
      if Builtin.beq first c.node then some ([], c, rest)
      else
        match splitFirstMatch first rest with
        | some (pre, x, post) => some (c :: pre, x, post)
        | none => none

/-- The shared body of `TreeNode::diff_union_builtins` and
`TreeSet::diff_union_builtins` (the two Rust impls are textually identical),
acting on the child list: walk down the first matching child as long as one
exists, otherwise append the fresh chain `TreeSet::new_from_builtins` builds
from everything left and return it as the suffix. -/
def diffUnionList : List TreeNode → List Builtin → List TreeNode × List Builtin
  | children, [] => (children, [])
  | children, first :: rest =>
      match splitFirstMatch first children with
      | some (pre, child, post) =>
          let r := diffUnionList child.children rest
          (pre ++ TreeNode.mk child.node r.1 :: post, r.2)
      | none =>
          (children ++ (TreeSet.new_from_builtins ⟨first :: rest⟩).children,
            first :: rest)

/-- `TreeNode::diff_union_builtins`, with the mutation made explicit: the
updated node is returned beside the suffix. -/
def TreeNode.diff_union_builtins (t : TreeNode) (builtins : Builtins) :
    TreeNode × Builtins :=
  (TreeNode.mk t.node (diffUnionList t.children builtins.vec).1,
    ⟨(diffUnionList t.children builtins.vec).2⟩)

/-- `TreeSet::diff_union_builtins`, with the mutation made explicit: the
updated trie is returned beside the suffix. -/
def TreeSet.diff_union_builtins (t : TreeSet) (builtins : Builtins) :
    TreeSet × Builtins :=
  (⟨(diffUnionList t.children builtins.vec).1⟩,
    ⟨(diffUnionList t.children builtins.vec).2⟩)

/-- Fold a list of insertions over a trie, for stating invariants about
every trie reachable from the empty trie. -/
def TreeSet.insertAll (t : TreeSet) : List Builtins → TreeSet
  | [] => t
  | b :: rest => TreeSet.insertAll (t.diff_union_builtins b).1 rest

/-- The inserted operations all match an existing root-to-node chain of the
forest, following the same first-match walk `diff_union_builtins` takes. -/
def MatchesChain : List TreeNode → List Builtin → Prop
  | _, [] => True
  | children, first :: rest =>
      match splitFirstMatch first children with
      | some (_, child, _) => MatchesChain child.children rest
      | none => False

/-- The shape of a mutating insertion: exactly one fresh chain, built from
the non-empty unmatched suffix, is appended as a new child of the last
matched node; every other node and subtree is kept intact. -/
inductive ExtendsAt : List TreeNode → List TreeNode → List Builtin → Prop where
  | here : ∀ (cs : List TreeNode) (suffix : List Builtin), suffix ≠ [] →
      ExtendsAt cs (cs ++ (TreeSet.new_from_builtins ⟨suffix⟩).children) suffix
  | deeper : ∀ (pre post cc : List TreeNode) (child : TreeNode)
      (suffix : List Builtin), ExtendsAt child.children cc suffix →
      ExtendsAt (pre ++ child :: post) (pre ++ TreeNode.mk child.node cc :: post)
        suffix

/-- No two sibling nodes hold equal operations, under the custom operation
equality. -/
def siblingsOk (l : List TreeNode) : Prop :=
  l.Pairwise (fun a b => Builtin.beq a.node b.node = false)

/-- Well-formedness of a trie node: its children are pairwise non-equal
operations, recursively at every level. -/
inductive TreeNode.WF : TreeNode → Prop where
  | mk : ∀ (n : Builtin) (cs : List TreeNode), siblingsOk cs →
      (∀ c ∈ cs, TreeNode.WF c) → TreeNode.WF (TreeNode.mk n cs)

/-- Well-formedness of a forest of trie nodes. -/
def ForestWF (cs : List TreeNode) : Prop :=
  siblingsOk cs ∧ ∀ c ∈ cs, TreeNode.WF c

/-- Well-formedness of a trie: no two siblings at any level hold equal
operations. -/
def TreeSet.WF (t : TreeSet) : Prop := ForestWF t.children

/-- Modelled from the spec (§4.2): the lowering contract stated directly as
a recursion — one let binding per operation, the bound name being the
previous name extended with an underscore and the operation's tag, the
right-hand side applying the operation to the variable bound by the
enclosing binding (or the starting name), the outermost binding belonging
to the first operation and the continuation sitting innermost.  Compared
against `Builtins.to_air` for the refinement claim. -/
def lowerSpec (special_funcs : CodeGenSpecialFuncs) (name : String) (tipo : Ty)
    (cont : AirTree) : List Builtin → AirTree
  | [] => cont
  | b :: rest =>
      AirTree.let_assignment (name ++ "_" ++ b.to_string)
        (b.to_air_call special_funcs (AirTree.local_var name tipo))
        (lowerSpec special_funcs (name ++ "_" ++ b.to_string) b.tipo cont rest)

/-! ## Helper lemmas -/

theorem TreeNode.eta (t : TreeNode) : TreeNode.mk t.node t.children = t := by
  cases t; rfl

theorem Builtin.beq_symm (a b : Builtin) : Builtin.beq a b = Builtin.beq b a := by
  cases a <;> cases b <;> rfl

theorem Builtin.beq_self_iff (b : Builtin) :
    Builtin.beq b b = true ↔ b.kind ≠ BuiltinKind.fstPair := by
  cases b <;> simp [Builtin.beq, Builtin.kind]

theorem listReduce_concat (l : List TreeNode) (hl : l ≠ []) (y : TreeNode) :
    listReduce (l ++ [y]) =
      some (TreeNode.mk y.node (y.children ++ (listReduce l).toList)) := by
  cases l with
  | nil => exact absurd rfl hl
  | cons x xs => simp [listReduce, List.foldl_append]

theorem new_from_builtins_cons (b : Builtin) (rest : List Builtin) :
    TreeSet.new_from_builtins ⟨b :: rest⟩ =
      TreeSet.mk [TreeNode.mk b (TreeSet.new_from_builtins ⟨rest⟩).children] := by
  cases rest with
  | nil => rfl
  | cons r rs =>
    show TreeSet.mk
        (listReduce (((TreeNode.mk b []) :: (r :: rs).map
          (fun item => TreeNode.mk item [])).reverse)).toList = _
    rw [List.reverse_cons, listReduce_concat _ (by simp) _]
    rfl

theorem diffUnionList_nil_left (bs : List Builtin) :
    (diffUnionList [] bs).1 = (TreeSet.new_from_builtins ⟨bs⟩).children := by
  cases bs with
  | nil => rfl
  | cons b rest => simp [diffUnionList, splitFirstMatch]

theorem splitFirstMatch_none {first : Builtin} :
    ∀ {l : List TreeNode}, splitFirstMatch first l = none →
      ∀ c ∈ l, Builtin.beq first c.node = false := by
  intro l
  induction l with
  | nil => intro _ c hc; cases hc
  | cons x xs ih =>
    intro h c hc
    simp only [splitFirstMatch] at h
    by_cases hx : Builtin.beq first x.node = true
    · rw [if_pos hx] at h; cases h
    · rw [if_neg hx] at h
      rcases List.mem_cons.mp hc with rfl | hc'
      · exact Bool.eq_false_iff.mpr hx
      · have hnone : splitFirstMatch first xs = none := by
          cases hm : splitFirstMatch first xs with
          | none => rfl
          | some v =>
            obtain ⟨pre, xm, post⟩ := v
            rw [hm] at h
            exact absurd h (by simp)
        exact ih hnone c hc'

theorem splitFirstMatch_some {first : Builtin} :
    ∀ {l pre post : List TreeNode} {child : TreeNode},
      splitFirstMatch first l = some (pre, child, post) →
      l = pre ++ child :: post ∧ (∀ c ∈ pre, Builtin.beq first c.node = false) ∧
        Builtin.beq first child.node = true := by
  intro l
  induction l with
  | nil => intro pre post child h; cases h
  | cons x xs ih =>
    intro pre post child h
    simp only [splitFirstMatch] at h
    by_cases hx : Builtin.beq first x.node = true
    · rw [if_pos hx] at h
      simp only [Option.some.injEq, Prod.mk.injEq] at h
      obtain ⟨h1, h2, h3⟩ := h
      subst h1; subst h2; subst h3
      exact ⟨rfl, fun c hc => absurd hc (List.not_mem_nil c), hx⟩
    · rw [if_neg hx] at h
      cases hm : splitFirstMatch first xs with
      | none => rw [hm] at h; cases h
      | some v =>
        obtain ⟨pre2, child2, post2⟩ := v
        rw [hm] at h
        simp only [Option.some.injEq, Prod.mk.injEq] at h
        obtain ⟨h1, h2, h3⟩ := h
        subst h1; subst h2; subst h3
        obtain ⟨hl, hmiss, hmatch⟩ := ih hm
        refine ⟨by rw [hl]; rfl, ?_, hmatch⟩
        intro c hc
        rcases List.mem_cons.mp hc with rfl | hc'
        · exact Bool.eq_false_iff.mpr hx
        · exact hmiss c hc'

theorem splitFirstMatch_build {first : Builtin} :
    ∀ (pre : List TreeNode) (child : TreeNode) (post : List TreeNode),
      (∀ c ∈ pre, Builtin.beq first c.node = false) →
      Builtin.beq first child.node = true →
      splitFirstMatch first (pre ++ child :: post) = some (pre, child, post) := by
  intro pre
  induction pre with
  | nil =>
    intro child post _ hmatch
    simp only [List.nil_append, splitFirstMatch]
    rw [if_pos hmatch]
  | cons x xs ih =>
    intro child post hmiss hmatch
    have hx : Builtin.beq first x.node = false := hmiss x (List.mem_cons_self x xs)
    simp only [List.cons_append, splitFirstMatch]
    rw [if_neg (by simp [hx])]
    simp only [List.append_eq]
    rw [ih child post (fun c hc => hmiss c (List.mem_cons_of_mem x hc)) hmatch]

theorem diff_union_new (b : Builtins) :
    (TreeSet.new.diff_union_builtins b).1 = TreeSet.new_from_builtins b := by
  show TreeSet.mk (diffUnionList [] b.vec).1 = _
  rw [diffUnionList_nil_left]

/-- Walking a chain built from `S1` with the sequence `S1 ++ E` consumes the
whole chain and grows it by the chain of `E`, provided every operation of
`S1` matches itself. -/
theorem diffUnion_chain_extension :
    ∀ (S1 E : List Builtin), (∀ b ∈ S1, Builtin.beq b b = true) → E ≠ [] →
      diffUnionList (TreeSet.new_from_builtins ⟨S1⟩).children (S1 ++ E) =
        ((TreeSet.new_from_builtins ⟨S1 ++ E⟩).children, E) := by
  intro S1
  induction S1 with
  | nil =>
    intro E _ hE
    cases E with
    | nil => exact absurd rfl hE
    | cons e es =>
      show diffUnionList [] (e :: es) = _
      rw [show (diffUnionList [] (e :: es)) =
        ([] ++ (TreeSet.new_from_builtins ⟨e :: es⟩).children, e :: es) from rfl]
      simp
  | cons b S1' ih =>
    intro E hb hE
    have hbb : Builtin.beq b b = true := hb b (List.mem_cons_self b S1')
    rw [new_from_builtins_cons]
    have hsplit : splitFirstMatch b [TreeNode.mk b (TreeSet.new_from_builtins ⟨S1'⟩).children] =
        some ([], TreeNode.mk b (TreeSet.new_from_builtins ⟨S1'⟩).children, []) := by
      simp only [splitFirstMatch]
      rw [if_pos (by exact hbb)]
    show diffUnionList _ (b :: (S1' ++ E)) = _
    simp only [diffUnionList, hsplit]
    rw [show (TreeNode.mk b (TreeSet.new_from_builtins ⟨S1'⟩).children).children =
      (TreeSet.new_from_builtins ⟨S1'⟩).children from rfl]
    rw [ih E (fun c hc => hb c (List.mem_cons_of_mem b hc)) hE]
    simp only [List.cons_append, new_from_builtins_cons b (S1' ++ E)]
    simp only [TreeNode.node, Prod.mk.injEq, List.nil_append]

/-- Re-walking a forest with a sequence whose insertion it already absorbed
matches all the way down and changes nothing, provided every operation of
the sequence matches itself. -/
theorem diffUnionList_reinsert :
    ∀ (bs : List Builtin), (∀ b ∈ bs, Builtin.beq b b = true) →
      ∀ (cs : List TreeNode),
        diffUnionList (diffUnionList cs bs).1 bs = ((diffUnionList cs bs).1, []) := by
  intro bs
  induction bs with
  | nil => intro _ cs; rfl
  | cons first rest ih =>
    intro hb cs
    have hrest : ∀ b ∈ rest, Builtin.beq b b = true :=
      fun b hb' => hb b (List.mem_cons_of_mem first hb')
    cases hsp : splitFirstMatch first cs with
    | some pcp =>
      obtain ⟨pre, child, post⟩ := pcp
      obtain ⟨hcs, hmiss, hmatch⟩ := splitFirstMatch_some hsp
      obtain ⟨cn, cc⟩ := child
      simp only [TreeNode.node] at hmatch
      have hstep : diffUnionList cs (first :: rest) =
          (pre ++ TreeNode.mk cn (diffUnionList cc rest).1 :: post,
            (diffUnionList cc rest).2) := by
        simp only [diffUnionList, hsp, TreeNode.node, TreeNode.children]
      rw [hstep]
      have hsp2 : splitFirstMatch first
          (pre ++ TreeNode.mk cn (diffUnionList cc rest).1 :: post) =
          some (pre, TreeNode.mk cn (diffUnionList cc rest).1, post) :=
        splitFirstMatch_build pre _ post hmiss hmatch
      have hstep2 : diffUnionList
          (pre ++ TreeNode.mk cn (diffUnionList cc rest).1 :: post) (first :: rest) =
          (pre ++ TreeNode.mk cn (diffUnionList (diffUnionList cc rest).1 rest).1 :: post,
            (diffUnionList (diffUnionList cc rest).1 rest).2) := by
        simp only [diffUnionList, hsp2, TreeNode.node, TreeNode.children]
      rw [hstep2, ih hrest cc]
    | none =>
      have hchainC : (TreeSet.new_from_builtins ⟨first :: rest⟩).children =
          [TreeNode.mk first (TreeSet.new_from_builtins ⟨rest⟩).children] := by
        rw [new_from_builtins_cons]
      have hstep : diffUnionList cs (first :: rest) =
          (cs ++ (TreeSet.new_from_builtins ⟨first :: rest⟩).children, first :: rest) := by
        simp only [diffUnionList, hsp]
      rw [hstep, hchainC]
      have hmiss : ∀ c ∈ cs, Builtin.beq first c.node = false := splitFirstMatch_none hsp
      have hsp2 : splitFirstMatch first
          (cs ++ TreeNode.mk first (TreeSet.new_from_builtins ⟨rest⟩).children :: []) =
          some (cs, TreeNode.mk first (TreeSet.new_from_builtins ⟨rest⟩).children, []) :=
        splitFirstMatch_build cs _ [] hmiss (hb first (List.mem_cons_self first rest))
      simp only [diffUnionList, hsp2, TreeNode.node, TreeNode.children]
      have hr := ih hrest []
      rw [diffUnionList_nil_left rest] at hr
      rw [hr]

/-- The forward/backward passes of `to_air`, with an arbitrary prefix of
already-recorded tuples, agree with the direct recursion of the spec's
lowering contract. -/
theorem to_air_fold (sf : CodeGenSpecialFuncs) :
    ∀ (vec : List Builtin) (name : String) (tipo : Ty)
      (acc : List (String × Ty × String × Builtin)) (cont : AirTree),
      ((vec.foldl toAirStep (name, tipo, acc)).2.2).foldr (toAirWrap sf) cont =
        acc.foldr (toAirWrap sf) (lowerSpec sf name tipo cont vec) := by
  intro vec
  induction vec with
  | nil => intro name tipo acc cont; rfl
  | cons b rest ih =>
    intro name tipo acc cont
    show ((List.foldl toAirStep
        (name ++ "_" ++ b.to_string, b.tipo,
          acc ++ [(name, tipo, name ++ "_" ++ b.to_string, b)]) rest).2.2).foldr
      (toAirWrap sf) cont = _
    rw [ih]
    rw [List.foldr_append]
    rfl

theorem builtinListBeq_refl :
    ∀ (l : List Builtin), (∀ b ∈ l, Builtin.beq b b = true) →
      builtinListBeq l l = true := by
  intro l
  induction l with
  | nil => intro _; rfl
  | cons b rest ih =>
    intro h
    simp only [builtinListBeq, Bool.and_eq_true]
    exact ⟨h b (List.mem_cons_self b rest), ih (fun c hc => h c (List.mem_cons_of_mem b hc))⟩

/-- The translator only ever emits head, tail, constructor-fields and
second-of-pair operations: no output operation is a `FstPair`. -/
theorem newFromPathGo_no_fstPair (getTipo : Ty → List Path → Ty) (t : Ty) :
    ∀ (remaining : List Path) (builtins : List Builtin) (rebuilt : List Path)
      (out : List Builtin),
      newFromPathGo getTipo t builtins rebuilt remaining = some out →
      (∀ b ∈ builtins, b.kind ≠ BuiltinKind.fstPair) →
      ∀ b ∈ out, b.kind ≠ BuiltinKind.fstPair := by
  intro remaining
  induction remaining with
  | nil =>
    intro builtins rebuilt out h hb
    cases h
    exact hb
  | cons i rest ih =>
    intro builtins rebuilt out h hb
    cases i with
    | pair j =>
      by_cases h0 : j = 0
      · subst h0
        rw [newFromPathGo, if_pos rfl] at h
        refine ih _ _ _ h ?_
        intro b hb2
        rcases List.mem_append.mp hb2 with h1 | h2
        · exact hb b h1
        · rw [List.mem_singleton.mp h2]
          simp [Builtin.kind]
      · by_cases h1 : j = 1
        · subst h1
          rw [newFromPathGo, if_neg (by simp), if_pos rfl] at h
          refine ih _ _ _ h ?_
          intro b hb2
          rcases List.mem_append.mp hb2 with ha | hs
          · exact hb b ha
          · rw [List.mem_singleton.mp hs]
            simp [Builtin.kind]
        · rw [newFromPathGo, if_neg h0, if_neg h1] at h
          cases h
    | list j =>
      rw [newFromPathGo] at h
      refine ih _ _ _ h ?_
      intro b hb2
      rcases List.mem_append.mp hb2 with h1 | h2
      · rcases List.mem_append.mp h1 with h3 | h4
        · exact hb b h3
        · rw [List.eq_of_mem_replicate h4]
          simp [Builtin.kind]
      · rw [List.mem_singleton.mp h2]
        simp [Builtin.kind]
    | tuple j =>
      rw [newFromPathGo] at h
      refine ih _ _ _ h ?_
      intro b hb2
      rcases List.mem_append.mp hb2 with h1 | h2
      · rcases List.mem_append.mp h1 with h3 | h4
        · exact hb b h3
        · rw [List.eq_of_mem_replicate h4]
          simp [Builtin.kind]
      · rw [List.mem_singleton.mp h2]
        simp [Builtin.kind]
    | constr r j =>
      rw [newFromPathGo] at h
      refine ih _ _ _ h ?_
      intro b hb2
      rcases List.mem_append.mp hb2 with h1 | h2
      · rcases List.mem_append.mp h1 with h3 | h4
        · rcases List.mem_append.mp h3 with h5 | h6
          · exact hb b h5
          · rw [List.mem_singleton.mp h6]
            simp [Builtin.kind]
        · rw [List.eq_of_mem_replicate h4]
          simp [Builtin.kind]
      · rw [List.mem_singleton.mp h2]
        simp [Builtin.kind]
    | listTail j =>
      rw [newFromPathGo] at h
      refine ih _ _ _ h ?_
      intro b hb2
      rcases List.mem_append.mp hb2 with h1 | h2
      · exact hb b h1
      · rw [List.eq_of_mem_replicate h2]
        simp [Builtin.kind]

/-- The translation fold aborts exactly when some pair step carries an
index outside {0, 1}, independently of the accumulator. -/
theorem newFromPathGo_none_iff (getTipo : Ty → List Path → Ty) (t : Ty) :
    ∀ (remaining : List Path) (builtins : List Builtin) (rebuilt : List Path),
      newFromPathGo getTipo t builtins rebuilt remaining = none ↔
        ∃ j, Path.pair j ∈ remaining ∧ j ≠ 0 ∧ j ≠ 1 := by
  intro remaining
  induction remaining with
  | nil =>
    intro builtins rebuilt
    constructor
    · intro h; cases h
    · rintro ⟨j, hj, _⟩; cases hj
  | cons i rest ih =>
    intro builtins rebuilt
    cases i with
    | pair j =>
      by_cases h0 : j = 0
      · subst h0
        rw [newFromPathGo, if_pos rfl, ih]
        constructor
        · rintro ⟨k, hk, hk0, hk1⟩
          exact ⟨k, List.mem_cons_of_mem _ hk, hk0, hk1⟩
        · rintro ⟨k, hk, hk0, hk1⟩
          rcases List.mem_cons.mp hk with heq | hmem
          · exact absurd (Path.pair.inj heq) hk0
          · exact ⟨k, hmem, hk0, hk1⟩
      · by_cases h1 : j = 1
        · subst h1
          rw [newFromPathGo, if_neg (by simp), if_pos rfl, ih]
          constructor
          · rintro ⟨k, hk, hk0, hk1⟩
            exact ⟨k, List.mem_cons_of_mem _ hk, hk0, hk1⟩
          · rintro ⟨k, hk, hk0, hk1⟩
            rcases List.mem_cons.mp hk with heq | hmem
            · exact absurd (Path.pair.inj heq) hk1
            · exact ⟨k, hmem, hk0, hk1⟩
        · rw [newFromPathGo, if_neg h0, if_neg h1]
          exact iff_of_true rfl ⟨j, List.mem_cons_self _ _, h0, h1⟩
    | list j =>
      rw [newFromPathGo, ih]
      constructor
      · rintro ⟨k, hk, hk0, hk1⟩
        exact ⟨k, List.mem_cons_of_mem _ hk, hk0, hk1⟩
      · rintro ⟨k, hk, hk0, hk1⟩
        rcases List.mem_cons.mp hk with heq | hmem
        · cases heq
        · exact ⟨k, hmem, hk0, hk1⟩
    | tuple j =>
      rw [newFromPathGo, ih]
      constructor
      · rintro ⟨k, hk, hk0, hk1⟩
        exact ⟨k, List.mem_cons_of_mem _ hk, hk0, hk1⟩
      · rintro ⟨k, hk, hk0, hk1⟩
        rcases List.mem_cons.mp hk with heq | hmem
        · cases heq
        · exact ⟨k, hmem, hk0, hk1⟩
    | constr r j =>
      rw [newFromPathGo, ih]
      constructor
      · rintro ⟨k, hk, hk0, hk1⟩
        exact ⟨k, List.mem_cons_of_mem _ hk, hk0, hk1⟩
      · rintro ⟨k, hk, hk0, hk1⟩
        rcases List.mem_cons.mp hk with heq | hmem
        · cases heq
        · exact ⟨k, hmem, hk0, hk1⟩
    | listTail j =>
      rw [newFromPathGo, ih]
      constructor
      · rintro ⟨k, hk, hk0, hk1⟩
        exact ⟨k, List.mem_cons_of_mem _ hk, hk0, hk1⟩
      · rintro ⟨k, hk, hk0, hk1⟩
        rcases List.mem_cons.mp hk with heq | hmem
        · cases heq
        · exact ⟨k, hmem, hk0, hk1⟩

/-- Replacing one node of a sibling list with a node holding the same
operation preserves pairwise sibling distinctness. -/
theorem siblingsOk_replace {pre post : List TreeNode} {a b : TreeNode}
    (hnode : b.node = a.node) (h : siblingsOk (pre ++ a :: post)) :
    siblingsOk (pre ++ b :: post) := by
  unfold siblingsOk at h ⊢
  rw [List.pairwise_append] at h ⊢
  obtain ⟨h1, h2, h3⟩ := h
  rw [List.pairwise_cons] at h2 ⊢
  refine ⟨h1, ⟨by rw [hnode]; exact h2.1, h2.2⟩, ?_⟩
  · intro x hx y hy
    rcases List.mem_cons.mp hy with rfl | hy2
    · rw [hnode]
      exact h3 x hx a (List.mem_cons_self a post)
    · exact h3 x hx y (List.mem_cons_of_mem a hy2)

theorem TreeNode.WF_children {t : TreeNode} (h : t.WF) : ForestWF t.children := by
  cases h with
  | mk n cs hs hw => exact ⟨hs, hw⟩

/-- A freshly built chain is well formed: every node has at most one
child. -/
theorem chain_forestWF : ∀ (l : List Builtin),
    ForestWF (TreeSet.new_from_builtins ⟨l⟩).children := by
  intro l
  induction l with
  | nil => exact ⟨List.Pairwise.nil, fun c hc => absurd hc (List.not_mem_nil c)⟩
  | cons b rest ih =>
    rw [new_from_builtins_cons]
    refine ⟨?_, ?_⟩
    · exact List.pairwise_singleton _ _
    · intro c hc
      rw [List.mem_singleton.mp hc]
      exact TreeNode.WF.mk _ _ ih.1 ih.2

/-- One insertion preserves well-formedness of the forest: walking down a
matching child keeps all sibling lists, and a freshly appended chain root is
distinct from every existing sibling because none of them matched. -/
theorem diffUnionList_wf : ∀ (bs : List Builtin) (cs : List TreeNode),
    ForestWF cs → ForestWF (diffUnionList cs bs).1 := by
  intro bs
  induction bs with
  | nil => intro cs h; exact h
  | cons first rest ih =>
    intro cs h
    cases hsp : splitFirstMatch first cs with
    | some pcp =>
      obtain ⟨pre, child, post⟩ := pcp
      obtain ⟨hcs, hmiss, hmatch⟩ := splitFirstMatch_some hsp
      obtain ⟨cn, cc⟩ := child
      have hstep : (diffUnionList cs (first :: rest)).1 =
          pre ++ TreeNode.mk cn (diffUnionList cc rest).1 :: post := by
        simp only [diffUnionList, hsp, TreeNode.node, TreeNode.children]
      rw [hstep]
      subst hcs
      have hchildWF : TreeNode.WF (TreeNode.mk cn cc) :=
        h.2 _ (List.mem_append.mpr (Or.inr (List.mem_cons_self _ _)))
      have hcc : ForestWF cc := TreeNode.WF_children hchildWF
      have hrec := ih cc hcc
      constructor
      · exact siblingsOk_replace (by rfl) h.1
      · intro c hc
        rcases List.mem_append.mp hc with hpre | hcp
        · exact h.2 c (List.mem_append.mpr (Or.inl hpre))
        · rcases List.mem_cons.mp hcp with rfl | hpost
          · exact TreeNode.WF.mk _ _ hrec.1 hrec.2
          · exact h.2 c (List.mem_append.mpr (Or.inr (List.mem_cons_of_mem _ hpost)))
    | none =>
      have hchainC : (TreeSet.new_from_builtins ⟨first :: rest⟩).children =
          [TreeNode.mk first (TreeSet.new_from_builtins ⟨rest⟩).children] := by
        rw [new_from_builtins_cons]
      have hstep : (diffUnionList cs (first :: rest)).1 =
          cs ++ [TreeNode.mk first (TreeSet.new_from_builtins ⟨rest⟩).children] := by
        simp only [diffUnionList, hsp, hchainC]
      rw [hstep]
      have hmiss := splitFirstMatch_none hsp
      constructor
      · unfold siblingsOk
        rw [List.pairwise_append]
        refine ⟨h.1, List.pairwise_singleton _ _, ?_⟩
        intro a ha b hb
        rw [List.mem_singleton.mp hb]
        show Builtin.beq a.node first = false
        rw [Builtin.beq_symm]
        exact hmiss a ha
      · intro c hc
        rcases List.mem_append.mp hc with h1 | h2
        · exact h.2 c h1
        · rw [List.mem_singleton.mp h2]
          have hch := chain_forestWF rest
          exact TreeNode.WF.mk _ _ hch.1 hch.2

/-! ## Claim theorems -/

/-- C1: two accessor operations are equal under the code's custom equality
iff they carry the same kind tag and that tag is not `FstPair`; in
particular any `HeadList` equals any `HeadList`, `SndPair` any `SndPair`,
payloads ignored, while a `FstPair` operation equals nothing, not even a
`FstPair` with an identical payload. -/
theorem c1_builtin_equality (a b : Builtin) :
    Builtin.beq a b = true ↔ a.kind = b.kind ∧ a.kind ≠ BuiltinKind.fstPair := by
  cases a <;> cases b <;> simp [Builtin.beq, Builtin.kind]

/-- C2 as stated is false: the claim quantifies over all accessor
sequences, but when the shared prefix `S1` contains a `FstPair` operation
the second insertion cannot match the existing branch (a `FstPair` node
equals nothing), so the whole of `S2` is returned as the suffix rather
than just the extension, and the trie ends with two sibling top-level
branches rather than one.  Concretely with `S1 = [FstPair data]` and
`E = [TailList]`. -/
theorem c2_counterexample :
    ((TreeSet.new.diff_union_builtins ⟨[Builtin.fstPair Ty.data]⟩).1.diff_union_builtins
        ⟨[Builtin.fstPair Ty.data] ++ [Builtin.tailList]⟩).2 ≠ (⟨[Builtin.tailList]⟩ : Builtins) ∧
    ((TreeSet.new.diff_union_builtins ⟨[Builtin.fstPair Ty.data]⟩).1.diff_union_builtins
        ⟨[Builtin.fstPair Ty.data] ++ [Builtin.tailList]⟩).1.children.length ≠ 1 := by
  exact ⟨by decide, by decide⟩

/-- C2 (amended): for sequences `S1` and `S2 = S1 ++ E` with `E` non-empty,
PROVIDED every operation of the shared prefix `S1` matches itself (i.e. no
operation of `S1` is a `FstPair`), inserting `S1` into a fresh trie and
then `S2` makes the second insertion return exactly the extension `E`, and
leaves the trie a single chain covering `S2` (exactly one top-level
branch). -/
theorem c2_extension_insert (S1 E : List Builtin)
    (h1 : ∀ b ∈ S1, Builtin.beq b b = true) (h2 : E ≠ []) :
    ((TreeSet.new.diff_union_builtins ⟨S1⟩).1.diff_union_builtins ⟨S1 ++ E⟩).2 = ⟨E⟩ ∧
    ((TreeSet.new.diff_union_builtins ⟨S1⟩).1.diff_union_builtins ⟨S1 ++ E⟩).1 =
      TreeSet.new_from_builtins ⟨S1 ++ E⟩ ∧
    ((TreeSet.new.diff_union_builtins ⟨S1⟩).1.diff_union_builtins ⟨S1 ++ E⟩).1.children.length
      = 1 := by
  rw [diff_union_new ⟨S1⟩]
  have hext := diffUnion_chain_extension S1 E h1 h2
  have h2nd : (TreeSet.new_from_builtins ⟨S1⟩).diff_union_builtins ⟨S1 ++ E⟩ =
      (TreeSet.new_from_builtins ⟨S1 ++ E⟩, ⟨E⟩) := by
    show ((⟨(diffUnionList (TreeSet.new_from_builtins ⟨S1⟩).children (S1 ++ E)).1⟩ : TreeSet),
      (⟨(diffUnionList (TreeSet.new_from_builtins ⟨S1⟩).children (S1 ++ E)).2⟩ : Builtins)) = _
    rw [hext]
  rw [h2nd]
  refine ⟨rfl, rfl, ?_⟩
  cases hSE : S1 ++ E with
  | nil => exact absurd (List.append_eq_nil.mp hSE).2 h2
  | cons x xs =>
    rw [new_from_builtins_cons]
    rfl

/-- A concrete instance of the amended C2, discharging its hypotheses:
`S1 = [TailList]`, `E = [HeadList data]`. -/
theorem c2_witness :
    (∀ b ∈ [Builtin.tailList], Builtin.beq b b = true) ∧
    ([Builtin.headList Ty.data] : List Builtin) ≠ [] ∧
    ((TreeSet.new.diff_union_builtins ⟨[Builtin.tailList]⟩).1.diff_union_builtins
        ⟨[Builtin.tailList] ++ [Builtin.headList Ty.data]⟩).2 = ⟨[Builtin.headList Ty.data]⟩ :=
  ⟨by decide, by decide,
    (c2_extension_insert [Builtin.tailList] [Builtin.headList Ty.data]
      (by decide) (by decide)).1⟩

/-- C3 as stated is false: inserting `S = [FstPair data]` twice into a
fresh trie returns `S` itself, not the empty suffix, because the `FstPair`
node recorded by the first insertion matches nothing on the second walk. -/
theorem c3_counterexample :
    ((TreeSet.new.diff_union_builtins ⟨[Builtin.fstPair Ty.data]⟩).1.diff_union_builtins
        ⟨[Builtin.fstPair Ty.data]⟩).2 = ⟨[Builtin.fstPair Ty.data]⟩ ∧
    (⟨[Builtin.fstPair Ty.data]⟩ : Builtins) ≠ ⟨[]⟩ :=
  ⟨rfl, by decide⟩

/-- C3 (amended): for every trie and every sequence `S` whose operations
all match themselves (i.e. `S` contains no `FstPair`), inserting `S` and
then inserting `S` again makes the second insertion return the empty
suffix. -/
theorem c3_reinsert_empty_suffix (t : TreeSet) (S : Builtins)
    (h : ∀ b ∈ S.vec, Builtin.beq b b = true) :
    ((t.diff_union_builtins S).1.diff_union_builtins S).2 = ⟨[]⟩ := by
  show (⟨(diffUnionList (diffUnionList t.children S.vec).1 S.vec).2⟩ : Builtins) = ⟨[]⟩
  rw [diffUnionList_reinsert S.vec h t.children]

/-- A concrete instance of the amended C3, discharging its hypothesis:
re-inserting `[TailList]` into the trie that already absorbed it. -/
theorem c3_witness :
    (∀ b ∈ [Builtin.tailList], Builtin.beq b b = true) ∧
    ((TreeSet.new.diff_union_builtins ⟨[Builtin.tailList]⟩).1.diff_union_builtins
        ⟨[Builtin.tailList]⟩).2 = ⟨[]⟩ :=
  ⟨by decide, c3_reinsert_empty_suffix TreeSet.new ⟨[Builtin.tailList]⟩ (by decide)⟩

/-- C4 as stated is false: with `S = [FstPair data]`, popping the last
operation and merging it back yields a sequence that is structurally
identical to `S`, yet the code's sequence equality (elementwise custom
operation equality) rejects it, because `FstPair` is never equal to
itself. -/
theorem c4_counterexample :
    Builtins.beq ((Builtins.pop ⟨[Builtin.fstPair Ty.data]⟩).merge
        ⟨[Builtin.fstPair Ty.data]⟩) ⟨[Builtin.fstPair Ty.data]⟩ = false := rfl

/-- C4 (amended): for every non-empty sequence `S` whose operations all
match themselves (i.e. `S` contains no `FstPair`), removing the last
operation and concatenating a one-element sequence holding exactly the
removed operation yields a sequence equal to `S` under the code's sequence
equality. -/
theorem c4_pop_merge_roundtrip (S : Builtins) (h : S.vec ≠ [])
    (hfp : ∀ b ∈ S.vec, Builtin.beq b b = true) :
    Builtins.beq ((S.pop).merge ⟨[S.vec.getLast h]⟩) S = true := by
  have hsplit : S.vec.dropLast ++ [S.vec.getLast h] = S.vec :=
    List.dropLast_append_getLast h
  show builtinListBeq (S.vec.dropLast ++ [S.vec.getLast h]) S.vec = true
  rw [hsplit]
  exact builtinListBeq_refl S.vec hfp

/-- A concrete instance of the amended C4, discharging its hypotheses:
`S = [TailList]`. -/
theorem c4_witness :
    (([Builtin.tailList] : List Builtin) ≠ []) ∧
    (∀ b ∈ [Builtin.tailList], Builtin.beq b b = true) ∧
    Builtins.beq ((Builtins.pop ⟨[Builtin.tailList]⟩).merge
        ⟨[([Builtin.tailList].getLast (by decide))]⟩) ⟨[Builtin.tailList]⟩ = true :=
  ⟨by decide, by decide,
    c4_pop_merge_roundtrip ⟨[Builtin.tailList]⟩ (by decide) (by decide)⟩

/-- C5: lowering an accessor sequence produces exactly one let binding per
operation; each bound name extends the previous one with an underscore and
the operation's fixed tag; the outermost binding belongs to the first
operation and the innermost (adjacent to the continuation) to the last; and
each right-hand side applies its operation to the variable bound by the
enclosing binding (or to the starting name).  Stated as agreement of
`Builtins.to_air` with `lowerSpec`, the direct recursion transcribing the
spec's contract; the two-operation example of the claim is the instance
`S = ⟨[op1, op2]⟩`, `prev_name = "x"`. -/
theorem c5_to_air_lowering (S : Builtins) (sf : CodeGenSpecialFuncs)
    (prev_name : String) (subject_tipo : Ty) (thenTree : AirTree) :
    S.to_air sf prev_name subject_tipo thenTree =
      lowerSpec sf prev_name subject_tipo thenTree S.vec :=
  to_air_fold sf S.vec prev_name subject_tipo [] thenTree

/-- C6: the translator maps a `PairIndex(0)` step to a single `HeadList`
operation annotated with the type at the accumulated prefix — not to a
`FstPair` — and a `PairIndex(1)` step to a single `SndPair` operation;
consequently no translated path ever contains a `FstPair` operation. -/
theorem c6_pair_translation (getTipo : Ty → List Path → Ty) (t : Ty) :
    (∀ (builtins : List Builtin) (rebuilt rest : List Path),
        newFromPathGo getTipo t builtins rebuilt (Path.pair 0 :: rest) =
          newFromPathGo getTipo t
            (builtins ++ [Builtin.headList (getTipo t (rebuilt ++ [Path.pair 0]))])
            (rebuilt ++ [Path.pair 0]) rest) ∧
    (∀ (builtins : List Builtin) (rebuilt rest : List Path),
        newFromPathGo getTipo t builtins rebuilt (Path.pair 1 :: rest) =
          newFromPathGo getTipo t
            (builtins ++ [Builtin.sndPair (getTipo t (rebuilt ++ [Path.pair 1]))])
            (rebuilt ++ [Path.pair 1]) rest) ∧
    (∀ (path : List Path) (bs : Builtins),
        Builtins.new_from_path getTipo t path = some bs →
          ∀ b ∈ bs.vec, b.kind ≠ BuiltinKind.fstPair) := by
  refine ⟨fun builtins rebuilt rest => rfl, fun builtins rebuilt rest => rfl, ?_⟩
  intro path bs h hb
  cases hgo : newFromPathGo getTipo t [] [] path with
  | none => rw [Builtins.new_from_path, hgo] at h; cases h
  | some out =>
    rw [Builtins.new_from_path, hgo] at h
    cases h
    exact newFromPathGo_no_fstPair getTipo t path [] [] out hgo
      (fun b hb2 => absurd hb2 (List.not_mem_nil b)) hb

/-- A concrete instance of C6's translated-path conjunct, discharging its
hypothesis: the single-step path `[PairIndex(0)]`. -/
theorem c6_witness :
    Builtins.new_from_path (fun _ _ => Ty.data) Ty.data [Path.pair 0] =
        some ⟨[Builtin.headList Ty.data]⟩ ∧
    ∀ b ∈ [Builtin.headList Ty.data], Builtin.kind b ≠ BuiltinKind.fstPair :=
  ⟨rfl, (c6_pair_translation (fun _ _ => Ty.data) Ty.data).2.2 [Path.pair 0]
    ⟨[Builtin.headList Ty.data]⟩ rfl⟩

/-- C7: a `ConstructorIndex(_, i)` step emits `UnConstrFields`, then `i`
`TailList` operations, then one `HeadList` annotated with the type at the
accumulated prefix; for `i = 2` this is the claimed sequence
`UnConstrFields, TailList, TailList, HeadList`. -/
theorem c7_constr_translation (getTipo : Ty → List Path → Ty) (t : Ty) :
    (∀ (builtins : List Builtin) (rebuilt : List Path) (r i : Nat)
        (rest : List Path),
        newFromPathGo getTipo t builtins rebuilt (Path.constr r i :: rest) =
          newFromPathGo getTipo t
            (builtins ++ [Builtin.unConstrFields] ++
              List.replicate i Builtin.tailList ++
              [Builtin.headList (getTipo t (rebuilt ++ [Path.constr r i]))])
            (rebuilt ++ [Path.constr r i]) rest) ∧
    (∀ r : Nat, Builtins.new_from_path getTipo t [Path.constr r 2] =
        some ⟨[Builtin.unConstrFields, Builtin.tailList, Builtin.tailList,
          Builtin.headList (getTipo t [Path.constr r 2])]⟩) :=
  ⟨fun _builtins _rebuilt _r _i _rest => rfl, fun _r => rfl⟩

/-- C8: the translator entry points fault only on structurally invalid
input, modelled as `none`: `new_from_path` aborts iff the path contains a
pair step with index outside {0, 1}, and `new_from_list_case` aborts iff
its discriminator is neither list-length nor list-with-tail shaped; on
every well-formed input a sequence is returned. -/
theorem c8_abort_conditions :
    (∀ (getTipo : Ty → List Path → Ty) (t : Ty) (path : List Path),
        Builtins.new_from_path getTipo t path = none ↔
          ∃ j, Path.pair j ∈ path ∧ j ≠ 0 ∧ j ≠ 1) ∧
    (∀ c : CaseTest, Builtins.new_from_list_case c = none ↔
        ∃ k, c = CaseTest.other k) := by
  constructor
  · intro getTipo t path
    rw [Builtins.new_from_path, Option.map_eq_none']
    exact newFromPathGo_none_iff getTipo t path [] []
  · intro c
    cases c with
    | list i => simp [Builtins.new_from_list_case]
    | listWithTail i => simp [Builtins.new_from_list_case]
    | other k => simp [Builtins.new_from_list_case]

/-- C9: in every trie reachable from the empty trie by any sequence of
insertions, no two sibling child nodes at any level hold equal operations
under the custom operation equality. -/
theorem c9_sibling_distinct_invariant (insertions : List Builtins) :
    (TreeSet.insertAll TreeSet.new insertions).WF := by
  have main : ∀ (l : List Builtins) (t : TreeSet), t.WF → (TreeSet.insertAll t l).WF := by
    intro l
    induction l with
    | nil => intro t h; exact h
    | cons b rest ih =>
      intro t h
      exact ih _ (diffUnionList_wf b.vec t.children h)
  exact main insertions TreeSet.new
    ⟨List.Pairwise.nil, fun c hc => absurd hc (List.not_mem_nil c)⟩

/-- C10: an insertion whose operations all match an existing root-to-node
chain (including the empty sequence) returns the empty suffix and leaves
the trie entirely unchanged; otherwise the unmatched suffix is non-empty
and the only mutation is appending one fresh chain, built from that
suffix, as a new child of the last matched node, with every pre-existing
node and subtree kept intact (the `ExtendsAt` relation). -/
theorem c10_frame_effect : ∀ (cs : List TreeNode) (bs : List Builtin),
    (MatchesChain cs bs → diffUnionList cs bs = (cs, [])) ∧
    (¬ MatchesChain cs bs →
      ExtendsAt cs (diffUnionList cs bs).1 (diffUnionList cs bs).2 ∧
        (diffUnionList cs bs).2 ≠ []) := by
  intro cs bs
  induction bs generalizing cs with
  | nil => exact ⟨fun _ => rfl, fun hm => absurd trivial hm⟩
  | cons first rest ih =>
    cases hsp : splitFirstMatch first cs with
    | some pcp =>
      obtain ⟨pre, child, post⟩ := pcp
      obtain ⟨hcs, hmiss, hmatch⟩ := splitFirstMatch_some hsp
      obtain ⟨cn, cc⟩ := child
      have hm : MatchesChain cs (first :: rest) = MatchesChain cc rest := by
        simp only [MatchesChain, hsp, TreeNode.children]
      have hstep : diffUnionList cs (first :: rest) =
          (pre ++ TreeNode.mk cn (diffUnionList cc rest).1 :: post,
            (diffUnionList cc rest).2) := by
        simp only [diffUnionList, hsp, TreeNode.node, TreeNode.children]
      rw [hm, hstep]
      constructor
      · intro hmc
        rw [(ih cc).1 hmc, hcs]
      · intro hmc
        obtain ⟨hext, hne⟩ := (ih cc).2 hmc
        refine ⟨?_, hne⟩
        rw [hcs]
        exact ExtendsAt.deeper pre post (diffUnionList cc rest).1 (TreeNode.mk cn cc)
          (diffUnionList cc rest).2 hext
    | none =>
      have hm : MatchesChain cs (first :: rest) = False := by
        simp only [MatchesChain, hsp]
      have hstep : diffUnionList cs (first :: rest) =
          (cs ++ (TreeSet.new_from_builtins ⟨first :: rest⟩).children, first :: rest) := by
        simp only [diffUnionList, hsp]
      rw [hm, hstep]
      exact ⟨fun hf => hf.elim,
        fun _ => ⟨ExtendsAt.here cs (first :: rest) (by simp), by simp⟩⟩

/-- A concrete instance of C10's mutating branch, discharging its
hypothesis: inserting `[TailList]` into the empty forest appends the
one-node chain. -/
theorem c10_witness :
    ExtendsAt [] [TreeNode.mk Builtin.tailList []] [Builtin.tailList] ∧
      ([Builtin.tailList] : List Builtin) ≠ [] :=
  (c10_frame_effect [] [Builtin.tailList]).2 (fun h => h)

end StickBreakSet
